import Mathlib

/-!
Verification of the tinyrag repository against its natural-language
specification. The development shallowly embeds the core of
src/rag/rag.py (class TinyRAG) and the load-text handler of
src/api/api.py. Text is modelled as List Char; Python exceptions are
modelled as the error side of Except, so a function that may raise past
its API returns Except.error while a caught exception is turned back
into a normal return value inside the definition.

The document splitter, the vector store and the retriever are provided
by external libraries (langchain CharacterTextSplitter, Chroma); their
code is not part of this repository, so they are modelled from the
specification, as marked on each definition.
-/

namespace TinyRAG

/-! ### Chunker -/

/-- A chunk of a document. Following the data model of the spec, a chunk
records enough offset information to reconstruct order: text is the
chunk content including any overlap taken from the end of the previous
chunk, and ovLen is the length of that duplicated prefix together with
the boundary separator (0 for the first chunk of a document and for a
chunk that starts directly at a fresh segment). -/
structure Chunk where
  text : List Char
  ovLen : Nat
deriving DecidableEq, Repr

/-- Modelled from the spec: the Chunker first splits the text on the
separator character. Matches the semantics of splitting a string on a
one-character separator: the empty text yields one empty piece, and a
separator at either end yields an empty piece at that end. -/
def splitSep (sep : Char) : List Char → List (List Char)
  | [] => [[]]
  | c :: cs =>
    match splitSep sep cs with
    | [] => if c = sep then [[], []] else [[c]]
    | p :: ps => if c = sep then [] :: p :: ps else (c :: p) :: ps

/-- Joining a list of pieces with the separator between consecutive
pieces; inverse of splitSep. -/
def joinSep (sep : Char) : List (List Char) → List Char
  | [] => []
  | [p] => p
  | p :: q :: ps => p ++ sep :: joinSep sep (q :: ps)

/-- Modelled from the spec: the Chunker greedily concatenates
separator-delimited pieces until the accumulated chunk length would
exceed the chunk size; the next chunk starts the given number of overlap
characters before the end of the previous chunk. An un-split segment
longer than the chunk size is emitted as one oversized chunk rather
than truncated; the overlap prefix is dropped for a chunk whose first
segment would not fit together with the overlap. The arguments are the
remaining pieces, the chunk being accumulated, and the length of the
overlap prefix of that chunk. -/
def build (csz ovl : Nat) (sep : Char) : List (List Char) → List Char → Nat → List Chunk
  | [], cur, curOv => [⟨cur, curOv⟩]
  | p :: ps, cur, curOv =>
    if cur.length + 1 + p.length ≤ csz then
      build csz ovl sep ps (cur ++ sep :: p) curOv
    else
      let ov := cur.drop (cur.length - ovl)
      if ov.length + 1 + p.length ≤ csz then
        ⟨cur, curOv⟩ :: build csz ovl sep ps (ov ++ sep :: p) (ov.length + 1)
      else
        ⟨cur, curOv⟩ :: build csz ovl sep ps p 0

/-- Modelled from the spec: Chunker.split. Splits the text on the
separator, then greedily groups the pieces into overlapping chunks.
Empty input yields no chunks. -/
def split (csz ovl : Nat) (sep : Char) (text : List Char) : List Chunk :=
  if text = [] then []
  else
    match splitSep sep text with
    | [] => []
    | p :: ps => build csz ovl sep ps p 0

theorem splitSep_ne_nil (sep : Char) (l : List Char) : splitSep sep l ≠ [] := by
  cases l with
  | nil => simp [splitSep]
  | cons c cs =>
    simp only [splitSep]
    cases splitSep sep cs <;> split <;> split_ifs <;> simp

theorem build_ne_nil (csz ovl : Nat) (sep : Char) (ps : List (List Char))
    (cur : List Char) (curOv : Nat) : build csz ovl sep ps cur curOv ≠ [] := by
  cases ps with
  | nil => simp [build]
  | cons p ps =>
    simp only [build]
    split
    · exact build_ne_nil csz ovl sep ps _ _
    · split <;> simp

/-- Claim C5: for every non-empty input text, the chunk-splitting
operation returns a non-empty sequence of chunks, and it returns the
empty sequence exactly when the input text is empty. -/
theorem split_nil_iff (csz ovl : Nat) (sep : Char) (text : List Char) :
    split csz ovl sep text = [] ↔ text = [] := by
  constructor
  · intro h
    by_contra hne
    unfold split at h
    rw [if_neg hne] at h
    cases hs : splitSep sep text with
    | nil => exact splitSep_ne_nil sep text hs
    | cons p ps =>
      rw [hs] at h
      exact build_ne_nil csz ovl sep ps p 0 h
  · intro h
    subst h
    rfl

theorem split_nil_iff_w : split 300 30 '\n' ('a' :: []) ≠ [] := by
  intro h
  have := (split_nil_iff 300 30 '\n' ('a' :: [])).mp h
  exact absurd this (by decide)

theorem joinSep_splitSep (sep : Char) (l : List Char) : joinSep sep (splitSep sep l) = l := by
  induction l with
  | nil => rfl
  | cons c cs ih =>
    simp only [splitSep]
    cases h : splitSep sep cs with
    | nil => exact absurd h (splitSep_ne_nil sep cs)
    | cons p ps =>
      rw [h] at ih
      show joinSep sep (if c = sep then [] :: p :: ps else (c :: p) :: ps) = c :: cs
      by_cases hc : c = sep
      · subst hc
        simp only [if_pos rfl, joinSep, List.nil_append]
        rw [ih]
      · rw [if_neg hc]
        cases ps with
        | nil =>
          simp only [joinSep] at ih ⊢
          rw [ih]
        | cons q qs =>
          simp only [joinSep] at ih ⊢
          rw [List.cons_append, ih]

/-- Appending the separator before each piece; tail form of joinSep. -/
def sepConcat (sep : Char) : List (List Char) → List Char
  | [] => []
  | p :: ps => sep :: p ++ sepConcat sep ps

theorem joinSep_eq_append (sep : Char) (p : List Char) (ps : List (List Char)) :
    joinSep sep (p :: ps) = p ++ sepConcat sep ps := by
  induction ps generalizing p with
  | nil => simp [joinSep, sepConcat]
  | cons q qs ih => simp [joinSep, sepConcat, ih]

theorem sepConcat_eq_joinSep (sep : Char) (l : List (List Char)) (h : l ≠ []) :
    sepConcat sep l = sep :: joinSep sep l := by
  cases l with
  | nil => exact absurd rfl h
  | cons p ps =>
    rw [joinSep_eq_append]
    simp [sepConcat]

theorem build_recon (csz ovl : Nat) (sep : Char) (ps : List (List Char))
    (cur : List Char) (curOv : Nat) (h : curOv ≤ cur.length) :
    joinSep sep ((build csz ovl sep ps cur curOv).map fun c => c.text.drop c.ovLen) =
      cur.drop curOv ++ sepConcat sep ps := by
  induction ps generalizing cur curOv with
  | nil => simp [build, joinSep, sepConcat]
  | cons p ps ih =>
    simp only [build]
    split
    · rw [ih (cur ++ sep :: p) curOv
        (le_trans h (by simp only [List.length_append]; exact Nat.le_add_right _ _))]
      rw [List.drop_append_of_le_length h]
      simp [sepConcat]
    · split
      · rw [List.map_cons, joinSep_eq_append,
          sepConcat_eq_joinSep sep _
            (by simp only [ne_eq, List.map_eq_nil_iff]; exact build_ne_nil csz ovl sep ps _ _),
          ih _ _ (by simp only [List.length_append, List.length_cons]; omega)]
        have hd : (cur.drop (cur.length - ovl) ++ sep :: p).drop
            ((cur.drop (cur.length - ovl)).length + 1) = p := by
          have : cur.drop (cur.length - ovl) ++ sep :: p =
              (cur.drop (cur.length - ovl) ++ [sep]) ++ p := by simp
          rw [this]
          have hlen : (cur.drop (cur.length - ovl) ++ [sep]).length =
              (cur.drop (cur.length - ovl)).length + 1 := by simp
          rw [← hlen, List.drop_left]
        rw [hd]
        simp [sepConcat]
      · rw [List.map_cons, joinSep_eq_append,
          sepConcat_eq_joinSep sep _
            (by simp only [ne_eq, List.map_eq_nil_iff]; exact build_ne_nil csz ovl sep ps _ _),
          ih _ _ (Nat.zero_le _)]
        simp [sepConcat]

/-- Claim C6: for every input text, concatenating the chunks produced by
split in order, with the overlapping regions removed (each chunk minus
its recorded overlap prefix), joined with the separator (separator
normalization), reconstructs the input text exactly. -/
theorem split_roundtrip (csz ovl : Nat) (sep : Char) (text : List Char) :
    joinSep sep ((split csz ovl sep text).map fun c => c.text.drop c.ovLen) = text := by
  unfold split
  by_cases ht : text = []
  · subst ht
    rfl
  · rw [if_neg ht]
    cases hs : splitSep sep text with
    | nil => exact absurd hs (splitSep_ne_nil sep text)
    | cons p ps =>
      rw [build_recon csz ovl sep ps p 0 (Nat.zero_le _), List.drop_zero,
        ← joinSep_eq_append, ← hs, joinSep_splitSep]

theorem splitSep_not_mem (sep : Char) (l : List Char) :
    ∀ p ∈ splitSep sep l, sep ∉ p := by
  induction l with
  | nil =>
    intro p hp
    simp only [splitSep, List.mem_singleton] at hp
    subst hp
    simp
  | cons c cs ih =>
    intro p hp
    cases h : splitSep sep cs with
    | nil => exact absurd h (splitSep_ne_nil sep cs)
    | cons q qs =>
      rw [h] at ih
      simp only [splitSep, h] at hp
      by_cases hc : c = sep
      · rw [if_pos hc] at hp
        rcases List.mem_cons.mp hp with he | hm
        · subst he
          simp
        · exact ih p hm
      · rw [if_neg hc] at hp
        rcases List.mem_cons.mp hp with he | hm
        · subst he
          intro hmem
          rcases List.mem_cons.mp hmem with he2 | hm2
          · exact hc he2.symm
          · exact ih q (List.mem_cons_self q qs) hm2
        · exact ih p (List.mem_cons_of_mem q hm)

theorem build_sizes (csz ovl : Nat) (sep : Char) (ps : List (List Char))
    (cur : List Char) (curOv : Nat)
    (hcur : cur.length ≤ csz ∨ sep ∉ cur) (hps : ∀ p ∈ ps, sep ∉ p) :
    ∀ c ∈ build csz ovl sep ps cur curOv, c.text.length ≤ csz ∨ sep ∉ c.text := by
  induction ps generalizing cur curOv with
  | nil =>
    intro c hc
    simp only [build, List.mem_singleton] at hc
    subst hc
    exact hcur
  | cons p ps ih =>
    intro c hc
    simp only [build] at hc
    split at hc
    next h1 =>
      refine ih _ _ (Or.inl ?_) (fun q hq => hps q (List.mem_cons_of_mem p hq)) c hc
      simp only [List.length_append, List.length_cons]
      omega
    next h1 =>
      split at hc
      next h2 =>
        rcases List.mem_cons.mp hc with he | hm
        · rw [he]
          exact hcur
        · refine ih _ _ (Or.inl ?_) (fun q hq => hps q (List.mem_cons_of_mem p hq)) c hm
          simp only [List.length_append, List.length_cons]
          omega
      next h2 =>
        rcases List.mem_cons.mp hc with he | hm
        · rw [he]
          exact hcur
        · exact ih _ _ (Or.inr (hps p (List.mem_cons_self p ps)))
            (fun q hq => hps q (List.mem_cons_of_mem p hq)) c hm

theorem build_mem_cur (csz ovl : Nat) (sep : Char) (ps : List (List Char))
    (cur : List Char) (curOv : Nat) (h : csz < cur.length) :
    ∃ c ∈ build csz ovl sep ps cur curOv, c.text = cur := by
  cases ps with
  | nil => exact ⟨⟨cur, curOv⟩, by simp [build], rfl⟩
  | cons p ps =>
    simp only [build]
    split
    next h1 => exact absurd h1 (by omega)
    next h1 =>
      split
      next h2 => exact ⟨⟨cur, curOv⟩, List.mem_cons_self _ _, rfl⟩
      next h2 => exact ⟨⟨cur, curOv⟩, List.mem_cons_self _ _, rfl⟩

theorem build_mem_piece (csz ovl : Nat) (sep : Char) (ps : List (List Char))
    (cur : List Char) (curOv : Nat) :
    ∀ p ∈ ps, csz < p.length → ∃ c ∈ build csz ovl sep ps cur curOv, c.text = p := by
  induction ps generalizing cur curOv with
  | nil =>
    intro p hp
    exact absurd hp (List.not_mem_nil p)
  | cons q qs ih =>
    intro p hp h
    simp only [build]
    rcases List.mem_cons.mp hp with he | hm
    · subst he
      split
      next h1 => exact absurd h1 (by omega)
      next h1 =>
        split
        next h2 => exact absurd h2 (by omega)
        next h2 =>
          obtain ⟨c, hc, hct⟩ := build_mem_cur csz ovl sep qs p 0 h
          exact ⟨c, List.mem_cons_of_mem _ hc, hct⟩
    · split
      next h1 => exact ih _ _ p hm h
      next h1 =>
        split
        next h2 =>
          obtain ⟨c, hc, hct⟩ := ih _ _ p hm h
          exact ⟨c, List.mem_cons_of_mem _ hc, hct⟩
        next h2 =>
          obtain ⟨c, hc, hct⟩ := ih _ _ p hm h
          exact ⟨c, List.mem_cons_of_mem _ hc, hct⟩

/-- Claim C7: every chunk produced by split either has length at most
the chunk size or is a single separator-free segment (the oversized
exception of the claim also covers the last chunk a fortiori), and
every un-split segment longer than the chunk size appears untruncated
as the text of one chunk of the output. -/
theorem split_size_invariant (csz ovl : Nat) (sep : Char) (text : List Char) :
    (∀ c ∈ split csz ovl sep text, c.text.length ≤ csz ∨ sep ∉ c.text) ∧
    (∀ p ∈ splitSep sep text, csz < p.length →
      ∃ c ∈ split csz ovl sep text, c.text = p) := by
  by_cases ht : text = []
  · subst ht
    constructor
    · intro c hc
      simp [split] at hc
    · intro p hp hlen
      simp only [splitSep, List.mem_singleton] at hp
      subst hp
      exact absurd hlen (by simp)
  · unfold split
    rw [if_neg ht]
    cases hs : splitSep sep text with
    | nil => exact absurd hs (splitSep_ne_nil sep text)
    | cons p0 ps =>
      have hpieces := splitSep_not_mem sep text
      rw [hs] at hpieces
      constructor
      · exact build_sizes csz ovl sep ps p0 0
          (Or.inr (hpieces p0 (List.mem_cons_self p0 ps)))
          (fun q hq => hpieces q (List.mem_cons_of_mem p0 hq))
      · intro p hp hlen
        rcases List.mem_cons.mp hp with he | hm
        · subst he
          exact build_mem_cur csz ovl sep ps p 0 hlen
        · exact build_mem_piece csz ovl sep ps p0 0 p hm hlen

theorem split_size_invariant_w :
    (⟨'a' :: 'b' :: [], 0⟩ : Chunk).text.length ≤ 3 ∨
      '\n' ∉ (⟨'a' :: 'b' :: [], 0⟩ : Chunk).text :=
  (split_size_invariant 3 1 '\n' ('a' :: 'b' :: '\n' :: 'c' :: 'd' :: [])).1
    ⟨'a' :: 'b' :: [], 0⟩ (by decide)

/-! ### Answerer post-processing (TinyRAG.query, src/rag/rag.py) -/

/-- ASCII whitespace, as stripped by the default str.strip call in the
source. -/
def isWS (c : Char) : Bool :=
  c = ' ' || c = '\t' || c = '\n' || c = '\r' || c = '\x0B' || c = '\x0C'

/-- Whitespace stripping from both ends, modelling the strip call on the
raw model output in TinyRAG.query. -/
def pyStrip (s : List Char) : List Char :=
  ((s.dropWhile isWS).reverse.dropWhile isWS).reverse

/-- The answer post-processing of TinyRAG.query: strip whitespace, then
if the stripped answer is longer than max_length keep its first
max_length characters and append three dots. -/
def truncateAnswer (ml : Nat) (raw : List Char) : List Char :=
  let answer := pyStrip raw
  if ml < answer.length then answer.take ml ++ ('.' :: '.' :: '.' :: []) else answer

/-- A raw model output of length 151: 150 letters followed by a space. -/
def raw150 : List Char := List.replicate 150 'a' ++ (' ' :: [])

set_option maxRecDepth 40000 in
/-- Claim C2 counterexample: this raw model output is longer than the
default max_length of 150, yet the returned answer has length 150
rather than 153, because query strips the trailing space before
measuring and then performs no truncation. -/
theorem truncate_claim_cex :
    150 < raw150.length ∧
    ¬ ((truncateAnswer 150 raw150).length = 150 + 3 ∧
      (truncateAnswer 150 raw150).take 150 = raw150.take 150) := by
  constructor
  · decide
  · decide

/-- Claim C2 as amended: for every raw model output whose
whitespace-stripped form is longer than max_length, the answer has
length max_length plus three and its first max_length characters equal
the first max_length characters of the stripped output. -/
theorem truncate_amended (ml : Nat) (raw : List Char) (h : ml < (pyStrip raw).length) :
    (truncateAnswer ml raw).length = ml + 3 ∧
    (truncateAnswer ml raw).take ml = (pyStrip raw).take ml := by
  unfold truncateAnswer
  simp only [if_pos h]
  constructor
  · simp only [List.length_append, List.length_take, List.length_cons, List.length_nil]
    omega
  · rw [List.take_append_of_le_length (by simp only [List.length_take]; omega),
      List.take_take]
    simp

theorem truncate_amended_w :
    1 < (pyStrip ('a' :: 'b' :: 'c' :: [])).length ∧
    ((truncateAnswer 1 ('a' :: 'b' :: 'c' :: [])).length = 1 + 3 ∧
      (truncateAnswer 1 ('a' :: 'b' :: 'c' :: [])).take 1 =
        (pyStrip ('a' :: 'b' :: 'c' :: [])).take 1) :=
  ⟨by decide, truncate_amended 1 ('a' :: 'b' :: 'c' :: []) (by decide)⟩

/-! ### The TinyRAG state machine (src/rag/rag.py) -/

/-- One entry of the vector collection: the chunk text together with
the source identifier recorded in the document metadata. -/
structure Entry where
  content : List Char
  source : List Char
deriving DecidableEq, Repr

/-- Python exceptions that the embedded functions can raise. -/
inductive PyExc where
  | fileNotFound
  | valueError (msg : String)
  | libraryError (msg : String)
deriving DecidableEq, Repr

/-- The mutable state of a TinyRAG object: the vectorstore attribute
(None until setup_vectorstore ran) and whether the qa_chain attribute
has been set. -/
structure RAGState where
  vectorstore : Option (List Entry)
  qa_chain : Bool
deriving DecidableEq, Repr

/-- The state right after TinyRAG.__init__: both attributes are None. -/
def initial_state : RAGState := ⟨none, false⟩

/-- TinyRAG.load_documents. The Option argument is the outcome of the
filesystem access: none models a missing file or a loader failure (the
body then raises FileNotFoundError), some content a successful read.
The body splits the content with chunk size 300, overlap 30 and the
newline separator, tagging each chunk with the file path as source; the
broad except clause catches every exception and returns the empty list,
so the function never returns Except.error. -/
def load_documents (file : Option (List Char)) (path : List Char) :
    Except PyExc (List Entry) :=
  let body : Except PyExc (List Entry) :=
    match file with
    | none => Except.error PyExc.fileNotFound
    | some content =>
        Except.ok ((split 300 30 '\n' content).map fun c => ⟨c.text, path⟩)
  match body with
  | Except.ok texts => Except.ok texts
  | Except.error _ => Except.ok []

/-- Modelled from the spec: Chroma.from_documents with a persist
directory appends the new documents to the previously persisted
collection; prior vectors from the same source are not removed. -/
def chromaFromDocuments (persisted texts : List Entry) : List Entry :=
  persisted ++ texts

/-- TinyRAG.setup_vectorstore. The function has no try block: the
outcome of the external embedding and persistence calls is the first
argument, and a failure there propagates as a raised exception. On
success the vectorstore attribute holds the collection built by
chromaFromDocuments over the persisted entries. -/
def setup_vectorstore (fail : Option PyExc) (persisted texts : List Entry)
    (st : RAGState) : Except PyExc RAGState :=
  match fail with
  | some e => Except.error e
  | none => Except.ok { st with vectorstore := some (chromaFromDocuments persisted texts) }

/-- TinyRAG.create_qa_chain: raises ValueError when the vectorstore
attribute is still None, otherwise sets the qa_chain attribute. -/
def create_qa_chain (st : RAGState) : Except PyExc RAGState :=
  match st.vectorstore with
  | none => Except.error (PyExc.valueError "Please setup vectorstore first")
  | some _ => Except.ok { st with qa_chain := true }

/-- The per-document excerpt attached to the sources of a query result:
the first 100 characters with three dots appended when the content is
longer than 100 characters, the full content otherwise. -/
def excerpt (content : List Char) : List Char :=
  if 100 < content.length then content.take 100 ++ ('.' :: '.' :: '.' :: []) else content

/-- The dictionary returned by TinyRAG.query: either an error entry
(the first early return carries no model key, the except branch does)
or an answer with its evidence list. -/
inductive QueryOut where
  | err (msg : String) (model : Option String)
  | success (answer : List Char) (sources : List (List Char × List Char)) (model : String)
deriving DecidableEq, Repr

/-- TinyRAG.query. Returns the error dictionary when the qa_chain
attribute is unset. Otherwise the outcome of the chain call (retrieval
plus generation, both external) is the chainResult argument: a raised
exception is caught and turned into the error dictionary, and a raw
answer with its source documents is post-processed into the success
dictionary. -/
def query (model_name : String) (st : RAGState)
    (chainResult : Except String (List Char × List Entry)) (ml : Nat) : QueryOut :=
  if st.qa_chain = false then QueryOut.err "Please initialize QA chain first" none
  else
    match chainResult with
    | Except.error e => QueryOut.err e (some model_name)
    | Except.ok (raw, docs) =>
        QueryOut.success (truncateAnswer ml raw)
          (docs.map fun d => (excerpt d.content, d.source)) model_name

/-- Claim C4: calling query before any successful index run, that is in
any state where the qa_chain attribute is unset, returns the
initialization error dictionary and never raises. -/
theorem query_uninitialized (model_name : String) (st : RAGState)
    (chainResult : Except String (List Char × List Entry)) (ml : Nat)
    (h : st.qa_chain = false) :
    query model_name st chainResult ml =
      QueryOut.err "Please initialize QA chain first" none := by
  simp [query, h]

theorem query_uninitialized_w :
    query "tinyllama" initial_state (Except.error "boom") 150 =
      QueryOut.err "Please initialize QA chain first" none :=
  query_uninitialized "tinyllama" initial_state (Except.error "boom") 150 rfl

/-- Claim C8: for every successful query, the evidence list has one
entry per retrieved context chunk, in retrieval order, each pairing the
chunk excerpt (the full text when at most 100 characters, otherwise the
first 100 characters with three dots appended) with the chunk source
identifier. -/
theorem query_evidence (model_name : String) (st : RAGState) (raw : List Char)
    (docs : List Entry) (ml : Nat) (h : st.qa_chain = true) :
    query model_name st (Except.ok (raw, docs)) ml =
      QueryOut.success (truncateAnswer ml raw)
        (docs.map fun d =>
          ((if 100 < d.content.length then d.content.take 100 ++ ('.' :: '.' :: '.' :: [])
            else d.content), d.source))
        model_name ∧
    (docs.map fun d => (excerpt d.content, d.source)).length = docs.length := by
  constructor
  · simp [query, h, excerpt]
  · exact List.length_map docs _

theorem query_evidence_w :
    query "tinyllama" (RAGState.mk (some []) true)
        (Except.ok ('h' :: 'i' :: [], Entry.mk ('d' :: 'o' :: 'c' :: []) ('f' :: []) :: []))
        150 =
      QueryOut.success ('h' :: 'i' :: [])
        ((('d' :: 'o' :: 'c' :: []), ('f' :: [])) :: []) "tinyllama" := by
  have h := (query_evidence "tinyllama" (RAGState.mk (some []) true)
    ('h' :: 'i' :: []) (Entry.mk ('d' :: 'o' :: 'c' :: []) ('f' :: []) :: []) 150 rfl).1
  rw [h]
  decide

/-- Claim C3 counterexample: create_qa_chain, called on the freshly
initialized state, raises ValueError instead of returning a tagged
error value, so the core does let an exception escape its own API. -/
theorem create_qa_chain_raises :
    create_qa_chain initial_state =
      Except.error (PyExc.valueError "Please setup vectorstore first") := rfl

/-- Claim C3 as amended: load_documents and query always return a typed
result for every input and internal failure (load_documents returns the
empty list on any failure, query returns either a success dictionary or
an error dictionary); however create_qa_chain raises ValueError when
the vectorstore was never set up, and setup_vectorstore propagates any
exception of the embedding or persistence layer. -/
theorem core_error_discipline :
    (∀ file path, ∃ texts, load_documents file path = Except.ok texts) ∧
    (∀ model_name st chainResult ml,
      (∃ msg m, query model_name st chainResult ml = QueryOut.err msg m) ∨
      (∃ a s, query model_name st chainResult ml = QueryOut.success a s model_name)) ∧
    create_qa_chain initial_state =
      Except.error (PyExc.valueError "Please setup vectorstore first") ∧
    (∀ e persisted texts st,
      setup_vectorstore (some e) persisted texts st = Except.error e) := by
  refine ⟨?_, ?_, rfl, fun e persisted texts st => rfl⟩
  · intro file path
    cases file with
    | none => exact ⟨[], rfl⟩
    | some content => exact ⟨_, rfl⟩
  · intro model_name st chainResult ml
    by_cases h : st.qa_chain = false
    · exact Or.inl ⟨"Please initialize QA chain first", none, by simp [query, h]⟩
    · cases chainResult with
      | error e => exact Or.inl ⟨e, some model_name, by simp [query, h]⟩
      | ok r =>
        obtain ⟨raw, docs⟩ := r
        exact Or.inr ⟨truncateAnswer ml raw,
          docs.map fun d => (excerpt d.content, d.source), by simp [query, h]⟩

/-- Claim C10: load_documents never raises; a missing file (or any
loader failure) yields the empty list, which is exactly what an empty
document yields, so the two are indistinguishable at the interface, and
no tagged error is produced. -/
theorem load_documents_total (path : List Char) :
    load_documents none path = Except.ok [] ∧
    load_documents none path = load_documents (some []) path ∧
    (∀ file, ∃ texts, load_documents file path = Except.ok texts) := by
  refine ⟨rfl, rfl, ?_⟩
  intro file
  cases file with
  | none => exact ⟨[], rfl⟩
  | some content => exact ⟨_, rfl⟩

/-! ### Retriever and the re-ingestion behavior (claim C1) -/

def insertByKey (key : Entry → Nat) (e : Entry) : List Entry → List Entry
  | [] => [e]
  | x :: xs => if key e ≤ key x then e :: x :: xs else x :: insertByKey key e xs

def sortByKey (key : Entry → Nat) : List Entry → List Entry
  | [] => []
  | x :: xs => insertByKey key x (sortByKey key xs)

/-- Modelled from the spec: the retriever embeds the query and returns
the k nearest entries of the collection ordered by ascending distance.
The distance each entry gets from the external embedding provider is an
explicit argument. -/
def retrieve (key : Entry → Nat) (k : Nat) (store : List Entry) : List Entry :=
  (sortByKey key store).take k

/-- The single chunk of the first ingestion of doc.txt. -/
def oldEntry : Entry := ⟨"old content".data, "doc.txt".data⟩

/-- The single chunk of the re-ingestion of doc.txt with new content. -/
def newEntry : Entry := ⟨"new content".data, "doc.txt".data⟩

/-- Claim C1 evaluated at the failing input: ingesting doc.txt and then
re-ingesting it with different content leaves the old chunk in the
collection (setup_vectorstore appends to the persisted entries), and a
retrieval whose nearest entry is the old chunk returns it. The claim
says the collection holds only the chunks of the most recent ingestion
of that source; the code keeps both. -/
theorem reingest_stale_chunks :
    setup_vectorstore none [] (oldEntry :: []) initial_state =
      Except.ok (RAGState.mk (some (oldEntry :: [])) false) ∧
    setup_vectorstore none (oldEntry :: []) (newEntry :: [])
        (RAGState.mk (some (oldEntry :: [])) false) =
      Except.ok (RAGState.mk (some (oldEntry :: newEntry :: [])) false) ∧
    oldEntry ∈ chromaFromDocuments (oldEntry :: []) (newEntry :: []) ∧
    retrieve (fun e => if e = oldEntry then 0 else 1) 1
      (chromaFromDocuments (oldEntry :: []) (newEntry :: [])) = oldEntry :: [] := by
  refine ⟨rfl, rfl, ?_, ?_⟩ <;> decide

/-! ### The load-text handler (src/api/api.py) -/

/-- The on-disk data directory, as a map from file path to content;
writing replaces the content stored under an existing path. -/
def writeFile (files : List (List Char × List Char)) (path content : List Char) :
    List (List Char × List Char) :=
  match files with
  | [] => (path, content) :: []
  | (p, c) :: rest =>
    if p = path then (p, content) :: rest else (p, c) :: writeFile rest path content

def readFile (files : List (List Char × List Char)) (path : List Char) :
    Option (List Char) :=
  match files with
  | [] => none
  | (p, c) :: rest => if p = path then some c else readFile rest path

theorem readFile_writeFile (files : List (List Char × List Char))
    (path content : List Char) :
    readFile (writeFile files path content) path = some content := by
  induction files with
  | nil => simp [writeFile, readFile]
  | cons f fs ih =>
    obtain ⟨p, c⟩ := f
    by_cases h : p = path
    · simp [writeFile, readFile, h]
    · simp [writeFile, readFile, h, ih]

/-- The JSON body returned by a successful POST to load-text. -/
structure LoadTextResponse where
  status : String
  chunks_processed : Nat
  filename : List Char
  model : String
deriving DecidableEq, Repr

/-- The load_text handler of src/api/api.py: writes the request content
to ../data/ followed by the filename, loads and splits that file, sets
up the vectorstore over it and creates the QA chain, answering with the
number of processed chunks and the filename; any exception of the
pipeline propagates (the service maps it to an HTTP 500). -/
def load_text (model_name : String) (embedFail : Option PyExc)
    (persisted : List Entry) (files : List (List Char × List Char))
    (st : RAGState) (content filename : List Char) :
    Except PyExc (List (List Char × List Char) × RAGState × LoadTextResponse) :=
  let filepath := "../data/".data ++ filename
  let files2 := writeFile files filepath content
  match load_documents (readFile files2 filepath) filepath with
  | Except.error e => Except.error e
  | Except.ok texts =>
    match setup_vectorstore embedFail persisted texts st with
    | Except.error e => Except.error e
    | Except.ok st2 =>
      match create_qa_chain st2 with
      | Except.error e => Except.error e
      | Except.ok st3 =>
        Except.ok (files2, st3,
          LoadTextResponse.mk "success" texts.length filename model_name)

/-- Claim C9: a load-text request that does not hit an embedding or
persistence failure stores the content under the data directory path
built from the filename, runs the chunking and indexing pipeline, and
answers success with chunks_processed equal to the number of chunks the
splitter produced and the filename echoed back. -/
theorem load_text_ok (model_name : String) (persisted : List Entry)
    (files : List (List Char × List Char)) (st : RAGState)
    (content filename : List Char) (embedFail : Option PyExc)
    (h : embedFail = none) :
    load_text model_name embedFail persisted files st content filename =
      Except.ok
        (writeFile files ("../data/".data ++ filename) content,
         RAGState.mk
           (some (chromaFromDocuments persisted
             ((split 300 30 '\n' content).map fun c =>
               ⟨c.text, "../data/".data ++ filename⟩))) true,
         LoadTextResponse.mk "success" (split 300 30 '\n' content).length
           filename model_name) ∧
    readFile (writeFile files ("../data/".data ++ filename) content)
      ("../data/".data ++ filename) = some content := by
  subst h
  refine ⟨?_, readFile_writeFile files _ content⟩
  simp [load_text, readFile_writeFile, load_documents, setup_vectorstore,
    create_qa_chain, List.length_map]

theorem load_text_ok_w :
    load_text "tinyllama" none [] [] initial_state ('h' :: 'i' :: []) ('t' :: []) =
      Except.ok
        (writeFile [] ("../data/".data ++ ('t' :: [])) ('h' :: 'i' :: []),
         RAGState.mk
           (some (chromaFromDocuments []
             ((split 300 30 '\n' ('h' :: 'i' :: [])).map fun c =>
               ⟨c.text, "../data/".data ++ ('t' :: [])⟩))) true,
         LoadTextResponse.mk "success" (split 300 30 '\n' ('h' :: 'i' :: [])).length
           ('t' :: []) "tinyllama") ∧
    readFile (writeFile [] ("../data/".data ++ ('t' :: [])) ('h' :: 'i' :: []))
      ("../data/".data ++ ('t' :: [])) = some ('h' :: 'i' :: []) :=
  load_text_ok "tinyllama" [] [] initial_state ('h' :: 'i' :: []) ('t' :: []) none rfl

end TinyRAG
